import Mathlib

/-!
Shallow embedding of `src/extension.ts` (the "select all other occurrences"
editor command) and proofs about its behaviour.

Conventions of the embedding:
* Document text is a `List Char`; a JavaScript string index is a `Nat`.
* `vscode.Position` is `Position` (fields `line`, `character`).
* `vscode.Range` / `vscode.Selection` is `Range` (fields `start`, `stop`,
  where `stop` stands for the reserved word `end`).  The source only ever
  uses selections through their `Range` interface (`start`, `isEmpty`,
  construction from two positions), so one type suffices.
* JavaScript's `-1` results are modelled with `Option`/`Int` as noted at
  each definition.
* The host editor (`vscode.TextEditor` plus its document) is modelled by
  `TextEditor`: the document text, the primary selection, and the host's
  `getWordRangeAtPosition` capability as an unconstrained function.
-/

namespace Vscode

/-- A `vscode.Position`: zero-based `line` and `character`. -/
structure Position where
  line : Nat
  character : Nat
deriving DecidableEq

/-- A `vscode.Range` (also used for `vscode.Selection`): `start` and `stop`
positions, `stop` standing for the field named `end` in the source. -/
structure Range where
  start : Position
  stop : Position
deriving DecidableEq

/-- `vscode.Range.isEmpty`: the two end positions are equal. -/
def Range.isEmpty (r : Range) : Bool := decide (r.start = r.stop)

/-- `vscode.Position.translate(lineDelta, characterDelta)` for the
non-negative deltas used by the source (line 33 uses `translate(0, length)`). -/
def translate (p : Position) (lineDelta characterDelta : Nat) : Position :=
  ⟨p.line + lineDelta, p.character + characterDelta⟩

/-- One character step of the offset-to-position walk: a newline moves to
column 0 of the next line, any other character advances the column. -/
def posStep (p : Position) (c : Char) : Position :=
  if c = '\n' then ⟨p.line + 1, 0⟩ else ⟨p.line, p.character + 1⟩

/-- Walk `offset` characters of `text` starting from position `p`.
Offsets beyond the end of the text stop at the final position, matching the
clamping done by `TextDocument.positionAt`. -/
def positionAtAux : List Char → Nat → Position → Position
  | _, 0, p => p
  | [], _ + 1, p => p
  | c :: text, n + 1, p => positionAtAux text n (posStep p c)

/-- `vscode.TextDocument.positionAt(offset)`: the (line, character) position
of a character offset, offsets clamped to the text length. -/
def positionAt (text : List Char) (offset : Nat) : Position :=
  positionAtAux text offset ⟨0, 0⟩

/-- Length of the first line of `text` (characters before the first
newline). -/
def headLineLength : List Char → Nat
  | [] => 0
  | c :: rest => if c = '\n' then 0 else headLineLength rest + 1

/-- Offset of position (`line`, `character`) in `text`, with the validation
performed by `TextDocument.offsetAt`: the character is clamped to the line
length and a line beyond the last line maps to the end of the text. -/
def offsetAtAux : List Char → Nat → Nat → Nat
  | text, 0, character => min character (headLineLength text)
  | text, line + 1, character =>
    if headLineLength text < text.length then
      headLineLength text + 1 + offsetAtAux (text.drop (headLineLength text + 1)) line character
    else text.length

/-- `vscode.TextDocument.offsetAt(position)`. -/
def offsetAt (text : List Char) (p : Position) : Nat :=
  offsetAtAux text p.line p.character

/-- `vscode.TextDocument.getText(range)`: the characters between the
offsets of the validated end positions of the range (vscode ranges are
normalised, so `start ≤ stop` for every host-supplied range). -/
def getTextInRange (text : List Char) (r : Range) : List Char :=
  (text.take (offsetAt text r.stop)).drop (offsetAt text r.start)

/-- Whether `search` occurs in `text` at offset `i`, i.e.
`text[i : i + search.length] == search`. -/
def matchesAt (text search : List Char) (i : Nat) : Bool :=
  decide ((text.drop i).take search.length = search)

/-- First offset `j ≥ i` with `matchesAt text search j`, examining at most
`steps` candidate offsets. -/
def firstMatchGe (text search : List Char) (i : Nat) : Nat → Option Nat
  | 0 => none
  | steps + 1 =>
    if matchesAt text search i then some i
    else firstMatchGe text search (i + 1) steps

/-- JavaScript `String.prototype.indexOf(search, fromIndex)` on `text`
(ECMA-262 `String.prototype.indexOf` / `StringIndexOf`): the fromIndex is
clamped to `[0, text.length]` and the result is the smallest offset at or
after it where `search` occurs, `none` standing for `-1`.  For the empty
search string this always succeeds and returns the clamped fromIndex. -/
def jsIndexOfFrom (text search : List Char) (fromIndex : Nat) : Option Nat :=
  firstMatchGe text search (min fromIndex text.length)
    (text.length + 1 - min fromIndex text.length)

/-- The loop of `findAll` (extension.ts lines 13-18), with explicit fuel:
push the found index and resume the search at `index + 1`.  The source loop
has no fuel; `findAll` below supplies enough fuel for every terminating run
(for a non-empty search string the found indices strictly increase, so
`text.length + 1` iterations always reach the `-1` exit; for the empty
search string the real loop never exits, see `findAllAux_nil_search`). -/
def findAllAux (text search : List Char) (start : Nat) : Nat → List Nat
  | 0 => []
  | fuel + 1 =>
    match jsIndexOfFrom text search start with
    | none => []
    | some index => index :: findAllAux text search (index + 1) fuel

/-- `findAll(text, search)` (extension.ts lines 12-20): start indices of all
occurrences of `search` in `text`, scanning left to right and resuming one
past each match start. -/
def findAll (text search : List Char) : List Nat :=
  findAllAux text search 0 (text.length + 1)

/-- JavaScript `Array.prototype.indexOf` on a number array: index of the
first element equal to `x`, or `-1`. -/
def jsArrayIndexOf : List Nat → Nat → Int
  | [], _ => -1
  | a :: l, x =>
    if a = x then 0
    else if jsArrayIndexOf l x < 0 then -1 else jsArrayIndexOf l x + 1

/-- JavaScript `Array.prototype.splice(start, 1)` as a function on lists:
a negative `start` counts from the end of the array (so `-1` addresses the
last element), a `start` past the end deletes nothing. -/
def jsSplice1 (l : List Nat) (start : Int) : List Nat :=
  let actualStart : Nat :=
    if start < 0 then ((l.length : Int) + start).toNat else min start.toNat l.length
  l.take actualStart ++ l.drop (actualStart + 1)

/-- The removal step of extension.ts line 65:
`indices.splice(indices.indexOf(offset), 1)`. -/
def removeSeed (indices : List Nat) (offset : Nat) : List Nat :=
  jsSplice1 indices (jsArrayIndexOf indices offset)

/-- `indicesToSelections(editor, indices, length)` (extension.ts lines
30-34): one selection per index, from `positionAt(i)` to
`positionAt(i).translate(0, length)`. -/
def indicesToSelections (text : List Char) (indices : List Nat) (length : Nat) : List Range :=
  indices.map fun i =>
    let start := positionAt text i
    Range.mk start (translate start 0 length)

/-- The host editor state read by the command: the document text, the
primary selection, and the host's `getWordRangeAtPosition` capability
(returning `none` where the API returns `undefined`).  The word-boundary
rules live in the host, so the function is an unconstrained parameter. -/
structure TextEditor where
  text : List Char
  selection : Range
  getWordRangeAtPosition : Position → Option Range

/-- `getSelection(editor)` (extension.ts lines 44-47): the selected range,
or the word range at the cursor if the selection is empty, paired with
whether the selection was empty. -/
def getSelection (editor : TextEditor) : Option Range × Bool :=
  if editor.selection.isEmpty then
    (editor.getWordRangeAtPosition editor.selection.start, true)
  else (some editor.selection, false)

/-- The whole-word test of extension.ts lines 71-72:
`editor.document.getWordRangeAtPosition(s.start)?.isEqual(s)` (the
`undefined` of a missing word range is falsy). -/
def isWholeWord (editor : TextEditor) (s : Range) : Bool :=
  decide (editor.getWordRangeAtPosition s.start = some s)

/-- The seed text of extension.ts line 61:
`editor.document.getText(selection)`. -/
def seedTextOf (editor : TextEditor) (seed : Range) : List Char :=
  getTextInRange editor.text seed

/-- The selection list built by extension.ts lines 62-67 for a given seed
range: find all occurrences of the seed text, remove the seed occurrence
(line 65), and convert the remaining indices to selections. -/
def builtSelections (editor : TextEditor) (seed : Range) : List Range :=
  indicesToSelections editor.text
    (removeSeed (findAll editor.text (seedTextOf editor seed))
      (offsetAt editor.text seed.start))
    (seedTextOf editor seed).length

/-- Observable outcome of one invocation of the command.  `noop`: the
function returned before assigning `editor.selections` (no editor, or no
seed range).  `diverge`: `findAll` was invoked with the empty search
string, whose loop never returns (see `findAllAux_nil_search`), so the
invocation never completes and never assigns.  `set s`: the invocation
completed with the assignment `editor.selections = s`. -/
inductive OpResult where
  | noop : OpResult
  | diverge : OpResult
  | set : List Range → OpResult
deriving DecidableEq

/-- `selectAllOther()` (extension.ts lines 54-77), with
`vscode.window.activeTextEditor` passed as the `Option TextEditor`
argument.  The source has no guard between line 61 and line 62: when the
seed text is empty, `findAll` is called with the empty search string and
its loop never terminates, which the embedding records as
`OpResult.diverge`. -/
def selectAllOther (activeTextEditor : Option TextEditor) : OpResult :=
  match activeTextEditor with
  | none => OpResult.noop
  | some editor =>
    match getSelection editor with
    | (none, _) => OpResult.noop
    | (some selection, wholeWords) =>
      if seedTextOf editor selection = [] then OpResult.diverge
      else
        let selections := builtSelections editor selection
        if wholeWords then
          OpResult.set (selections.filter (isWholeWord editor))
        else OpResult.set selections

/-- Editor with a non-empty selection covering `lo` in the text `lo`. -/
def edSel : TextEditor :=
  { text := ['l', 'o']
    selection := ⟨⟨0, 0⟩, ⟨0, 2⟩⟩
    getWordRangeAtPosition := fun _ => none }

/-- Editor with an empty selection (a caret) and no word at the caret. -/
def edNoWord : TextEditor :=
  { text := [' ']
    selection := ⟨⟨0, 0⟩, ⟨0, 0⟩⟩
    getWordRangeAtPosition := fun _ => none }

/-- Editor with text `ab ab`, a caret at the start, and host word ranges
for the two occurrences of the word `ab`. -/
def edWord : TextEditor :=
  { text := ['a', 'b', ' ', 'a', 'b']
    selection := ⟨⟨0, 0⟩, ⟨0, 0⟩⟩
    getWordRangeAtPosition := fun p =>
      if p = ⟨0, 0⟩ then some ⟨⟨0, 0⟩, ⟨0, 2⟩⟩
      else if p = ⟨0, 3⟩ then some ⟨⟨0, 3⟩, ⟨0, 5⟩⟩
      else none }

/-- Editor whose whole text `abc` is selected, so the seed text occurs
exactly once. -/
def edUnique : TextEditor :=
  { text := ['a', 'b', 'c']
    selection := ⟨⟨0, 0⟩, ⟨0, 3⟩⟩
    getWordRangeAtPosition := fun _ => none }

/-- Editor in which the seed text is empty: the document is empty while
the selection is a positionally non-empty range, so `getSelection` yields
the selection itself and `getText` yields the empty string. -/
def edEmptySeed : TextEditor :=
  { text := []
    selection := ⟨⟨0, 0⟩, ⟨0, 5⟩⟩
    getWordRangeAtPosition := fun _ => none }

/-! ### Lemmas about the occurrence scan -/

theorem matchesAt_true_iff {text search : List Char} {i : Nat} :
    matchesAt text search i = true ↔ (text.drop i).take search.length = search := by
  simp [matchesAt]

theorem matchesAt_bound {text search : List Char} {i : Nat} (hs : search ≠ [])
    (h : matchesAt text search i = true) : i + search.length ≤ text.length := by
  rw [matchesAt_true_iff] at h
  have hpos : 0 < search.length := List.length_pos.mpr hs
  have hlen := congrArg List.length h
  simp only [List.length_take, List.length_drop] at hlen
  omega

theorem matchesAt_nil (text : List Char) (i : Nat) : matchesAt text [] i = true := by
  simp [matchesAt]

theorem firstMatchGe_some {text search : List Char} :
    ∀ steps i j, firstMatchGe text search i steps = some j →
      matchesAt text search j = true ∧ i ≤ j ∧ j < i + steps := by
  intro steps
  induction steps with
  | zero => intro i j h; simp [firstMatchGe] at h
  | succ n ih =>
    intro i j h
    by_cases hm : matchesAt text search i
    · simp [firstMatchGe, hm] at h
      subst h
      exact ⟨hm, Nat.le_refl _, by omega⟩
    · simp [firstMatchGe, hm] at h
      obtain ⟨h1, h2, h3⟩ := ih (i + 1) j h
      exact ⟨h1, by omega, by omega⟩

theorem firstMatchGe_min {text search : List Char} :
    ∀ steps i j, firstMatchGe text search i steps = some j →
      ∀ k, i ≤ k → k < j → matchesAt text search k = false := by
  intro steps
  induction steps with
  | zero => intro i j h; simp [firstMatchGe] at h
  | succ n ih =>
    intro i j h k hik hkj
    by_cases hm : matchesAt text search i
    · simp [firstMatchGe, hm] at h
      omega
    · simp [firstMatchGe, hm] at h
      rcases Nat.eq_or_lt_of_le hik with rfl | hlt
      · exact Bool.eq_false_iff.mpr hm
      · exact ih (i + 1) j h k hlt hkj

theorem firstMatchGe_none {text search : List Char} :
    ∀ steps i, firstMatchGe text search i steps = none →
      ∀ k, i ≤ k → k < i + steps → matchesAt text search k = false := by
  intro steps
  induction steps with
  | zero => intro i _ k _ h2; omega
  | succ n ih =>
    intro i h k hik hk
    by_cases hm : matchesAt text search i
    · simp [firstMatchGe, hm] at h
    · simp only [firstMatchGe, hm, if_neg] at h
      rcases Nat.eq_or_lt_of_le hik with rfl | hlt
      · exact Bool.eq_false_iff.mpr hm
      · exact ih (i + 1) h k hlt (by omega)

theorem jsIndexOfFrom_nil_search (text : List Char) (fromIndex : Nat) :
    jsIndexOfFrom text [] fromIndex = some (min fromIndex text.length) := by
  have hle : min fromIndex text.length ≤ text.length := Nat.min_le_right _ _
  have hsteps : text.length + 1 - min fromIndex text.length
      = (text.length - min fromIndex text.length) + 1 := by omega
  rw [jsIndexOfFrom, hsteps]
  simp [firstMatchGe, matchesAt_nil]

theorem findAllAux_nil_search (text : List Char) :
    ∀ fuel start, (findAllAux text [] start fuel).length = fuel := by
  intro fuel
  induction fuel with
  | zero => intro start; rfl
  | succ n ih =>
    intro start
    rw [findAllAux, jsIndexOfFrom_nil_search]
    simp [ih]

theorem findAllAux_eq_filter {text search : List Char} (hs : search ≠ []) :
    ∀ fuel start, start ≤ text.length → text.length + 1 ≤ start + fuel →
      findAllAux text search start fuel
        = (List.range' start (text.length - start)).filter (matchesAt text search) := by
  intro fuel
  induction fuel with
  | zero => intro start h1 h2; omega
  | succ n ih =>
    intro start h1 h2
    have hmin : min start text.length = start := Nat.min_eq_left h1
    rw [findAllAux]
    cases hfm : jsIndexOfFrom text search start with
    | none =>
      rw [jsIndexOfFrom, hmin] at hfm
      symm
      rw [List.filter_eq_nil_iff]
      intro a ha
      rw [List.mem_range'_1] at ha
      have := firstMatchGe_none _ _ hfm a ha.1 (by omega)
      simp [this]
    | some i =>
      rw [jsIndexOfFrom, hmin] at hfm
      obtain ⟨hm, hge, _⟩ := firstMatchGe_some _ _ _ hfm
      have hb := matchesAt_bound hs hm
      have hpos : 0 < search.length := List.length_pos.mpr hs
      have hilt : i < text.length := by omega
      show i :: findAllAux text search (i + 1) n
          = (List.range' start (text.length - start)).filter (matchesAt text search)
      rw [ih (i + 1) (by omega) (by omega)]
      have hsum : (text.length - i) + (i - start) = text.length - start := by omega
      have hmid : start + (i - start) = i := by omega
      have hsplit : List.range' start (text.length - start)
          = List.range' start (i - start) ++ List.range' i (text.length - i) := by
        rw [← hsum, ← List.range'_append_1, hmid]
      rw [hsplit, List.filter_append]
      have hleft : (List.range' start (i - start)).filter (matchesAt text search) = [] := by
        rw [List.filter_eq_nil_iff]
        intro a ha
        rw [List.mem_range'_1] at ha
        have := firstMatchGe_min _ _ _ hfm a ha.1 (by omega)
        simp [this]
      have hright : List.range' i (text.length - i)
          = i :: List.range' (i + 1) (text.length - (i + 1)) := by
        have hni : text.length - i = (text.length - (i + 1)) + 1 := by omega
        rw [hni, List.range'_succ]
      rw [hleft, hright, List.filter_cons_of_pos hm, List.nil_append]

theorem findAll_eq_filter {text search : List Char} (hs : search ≠ []) :
    findAll text search = (List.range text.length).filter (matchesAt text search) := by
  rw [findAll, findAllAux_eq_filter hs (text.length + 1) 0 (by omega) (by omega),
    List.range_eq_range', Nat.sub_zero]

/-! ### Lemmas about offset-to-position mapping -/

theorem positionAtAux_succ :
    ∀ (text : List Char) (n : Nat) (p : Position) (h : n < text.length),
      positionAtAux text (n + 1) p = posStep (positionAtAux text n p) text[n] := by
  intro text
  induction text with
  | nil => intro n p h; simp at h
  | cons c rest ih =>
    intro n p h
    cases n with
    | zero => simp [positionAtAux]
    | succ n =>
      have hn : n < rest.length := by simpa using h
      show positionAtAux rest (n + 1) (posStep p c)
          = posStep (positionAtAux rest n (posStep p c)) _
      rw [ih n (posStep p c) hn]
      simp

theorem positionAt_add_of_no_newline (text : List Char) :
    ∀ (L i : Nat), i + L ≤ text.length → '\n' ∉ (text.drop i).take L →
      positionAt text (i + L)
        = ⟨(positionAt text i).line, (positionAt text i).character + L⟩ := by
  intro L
  induction L with
  | zero => intro i _ _; simp
  | succ L ih =>
    intro i hle hnl
    have hi : i < text.length := by omega
    have hdrop : text.drop i = text[i] :: text.drop (i + 1) :=
      List.drop_eq_getElem_cons hi
    rw [hdrop, List.take_succ_cons] at hnl
    have hc : text[i] ≠ '\n' := by
      intro hcn
      exact hnl (hcn ▸ List.mem_cons_self _ _)
    have hrest : '\n' ∉ (text.drop (i + 1)).take L :=
      fun hm => hnl (List.mem_cons_of_mem _ hm)
    have hstep : positionAt text (i + 1)
        = posStep (positionAt text i) text[i] :=
      positionAtAux_succ text i ⟨0, 0⟩ hi
    have harr : i + (L + 1) = (i + 1) + L := by omega
    rw [harr, ih (i + 1) (by omega) hrest, hstep, posStep, if_neg hc]
    simp [Nat.add_assoc, Nat.add_comm 1 L]

/-! ### Lemmas about the removal step -/

theorem jsArrayIndexOf_not_mem {l : List Nat} {x : Nat} (h : x ∉ l) :
    jsArrayIndexOf l x = -1 := by
  induction l with
  | nil => rfl
  | cons a l ih =>
    have hax : ¬a = x := fun hax => h (hax ▸ List.mem_cons_self _ _)
    have hxl : x ∉ l := fun hm => h (List.mem_cons_of_mem _ hm)
    simp [jsArrayIndexOf, hax, ih hxl]

theorem jsArrayIndexOf_mem_nonneg {l : List Nat} {x : Nat} (h : x ∈ l) :
    0 ≤ jsArrayIndexOf l x := by
  induction l with
  | nil => simp at h
  | cons a l ih =>
    by_cases hax : a = x
    · simp [jsArrayIndexOf, hax]
    · have hxl : x ∈ l := by
        rcases List.mem_cons.mp h with h1 | h1
        · exact absurd h1.symm hax
        · exact h1
      have := ih hxl
      rw [jsArrayIndexOf, if_neg hax, if_neg (by omega)]
      omega

theorem jsSplice1_zero (a : Nat) (l : List Nat) : jsSplice1 (a :: l) 0 = l := by
  simp [jsSplice1]

theorem jsSplice1_cons_succ (a : Nat) (l : List Nat) (k : Int) (hk : 0 ≤ k) :
    jsSplice1 (a :: l) (k + 1) = a :: jsSplice1 l k := by
  have h1 : ¬(k + 1 < 0) := by omega
  have h2 : ¬(k < 0) := by omega
  have h3 : (k + 1).toNat = k.toNat + 1 := by omega
  simp only [jsSplice1, h1, h2, if_neg, not_false_iff, List.length_cons, h3]
  rw [Nat.succ_min_succ, List.take_succ_cons, List.drop_succ_cons, List.cons_append]

theorem jsSplice1_neg_one {l : List Nat} (h : l ≠ []) :
    jsSplice1 l (-1) = l.dropLast := by
  have hpos : 0 < l.length := List.length_pos.mpr h
  have h1 : ((-1 : Int) < 0) := by omega
  have h2 : ((l.length : Int) + (-1)).toNat = l.length - 1 := by omega
  simp only [jsSplice1, h1, if_pos, h2]
  have h3 : l.length - 1 + 1 = l.length := by omega
  rw [h3, List.drop_length, List.append_nil, List.dropLast_eq_take]

theorem removeSeed_singleton (x : Nat) : removeSeed [x] x = [] := by
  simp [removeSeed, jsArrayIndexOf, jsSplice1_zero]

/-! ### Lemmas about the orchestrator control flow -/

theorem selectAllOther_of_seed (editor : TextEditor) (seed : Range) (ww : Bool)
    (h : getSelection editor = (some seed, ww)) :
    selectAllOther (some editor)
      = if seedTextOf editor seed = [] then OpResult.diverge
        else if ww then
          OpResult.set ((builtSelections editor seed).filter (isWholeWord editor))
        else OpResult.set (builtSelections editor seed) := by
  show (match getSelection editor with
    | (none, _) => OpResult.noop
    | (some selection, wholeWords) =>
      if seedTextOf editor selection = [] then OpResult.diverge
      else
        let selections := builtSelections editor selection
        if wholeWords then OpResult.set (selections.filter (isWholeWord editor))
        else OpResult.set selections) = _
  rw [h]

theorem selectAllOther_no_word (editor : TextEditor)
    (h1 : editor.selection.isEmpty = true)
    (h2 : editor.getWordRangeAtPosition editor.selection.start = none) :
    selectAllOther (some editor) = OpResult.noop := by
  have h : getSelection editor = (none, true) := by
    simp [getSelection, h1, h2]
  show (match getSelection editor with
    | (none, _) => OpResult.noop
    | (some selection, wholeWords) =>
      if seedTextOf editor selection = [] then OpResult.diverge
      else
        let selections := builtSelections editor selection
        if wholeWords then OpResult.set (selections.filter (isWholeWord editor))
        else OpResult.set selections) = _
  rw [h]

/-! ### Claim theorems -/

/-- C1: for every text `T` and non-empty search string `S`, `findAll`
returns exactly the ascending enumeration of all start offsets `i` with
`T[i : i + len S] = S` (so overlapping matches are included: a search that
resumes at `i + 1` after a match at `i` misses no occurrence); in
particular `findAll "aaa" "aa" = [0, 1]` and `findAll "abc" "xyz" = []`. -/
theorem findAll_all_occurrences :
    (∀ text search : List Char, search ≠ [] →
      findAll text search
        = (List.range text.length).filter fun i =>
            decide ((text.drop i).take search.length = search))
    ∧ findAll ['a', 'a', 'a'] ['a', 'a'] = [0, 1]
    ∧ findAll ['a', 'b', 'c'] ['x', 'y', 'z'] = [] := by
  refine ⟨?_, by decide, by decide⟩
  intro text search hs
  have h := @findAll_eq_filter text search hs
  simpa [matchesAt] using h

/-- Witness for C1 at `text = "aaa"`, `search = "aa"`. -/
theorem findAll_all_occurrences_witness :
    (['a', 'a'] : List Char) ≠ []
    ∧ findAll ['a', 'a', 'a'] ['a', 'a']
        = (List.range (['a', 'a', 'a'] : List Char).length).filter fun i =>
            decide (((['a', 'a', 'a'] : List Char).drop i).take
              (['a', 'a'] : List Char).length = ['a', 'a']) :=
  ⟨by decide, findAll_all_occurrences.1 ['a', 'a', 'a'] ['a', 'a'] (by decide)⟩

/-- C7: for every text `T` and non-empty search string `S`, the offsets
returned by `findAll` are strictly increasing and each is a valid index:
`i + len S ≤ len T`. -/
theorem findAll_strictly_increasing_valid :
    ∀ text search : List Char, search ≠ [] →
      List.Pairwise (· < ·) (findAll text search)
      ∧ ∀ i ∈ findAll text search, i + search.length ≤ text.length := by
  intro text search hs
  rw [findAll_eq_filter hs]
  constructor
  · exact List.Pairwise.sublist (List.filter_sublist _) (List.pairwise_lt_range _)
  · intro i hi
    rw [List.mem_filter] at hi
    exact matchesAt_bound hs hi.2

/-- Witness for C7 at `text = "aaa"`, `search = "a"`. -/
theorem findAll_strictly_increasing_valid_witness :
    (['a'] : List Char) ≠ []
    ∧ List.Pairwise (· < ·) (findAll ['a', 'a', 'a'] ['a'])
    ∧ ∀ i ∈ findAll ['a', 'a', 'a'] ['a'],
        i + (['a'] : List Char).length ≤ (['a', 'a', 'a'] : List Char).length :=
  ⟨by decide,
    (findAll_strictly_increasing_valid ['a', 'a', 'a'] ['a'] (by decide)).1,
    (findAll_strictly_increasing_valid ['a', 'a', 'a'] ['a'] (by decide)).2⟩

/-- C2 counterexample: on the text `"ab\ncd"`, offset list `[0]` and match
length 3, the matched text `"ab\nc"` spans a line break and the range built
by `indicesToSelections` ends at `start.translate(0, 3)` (line 0, column 3),
not at `positionAt (0 + 3)` (line 1, column 0); so the built range is not
`[positionAt 0, positionAt (0 + 3)]` as the claim states. -/
theorem indicesToSelections_linebreak_cex :
    indicesToSelections ['a', 'b', '\n', 'c', 'd'] [0] 3
      ≠ [Range.mk (positionAt ['a', 'b', '\n', 'c', 'd'] 0)
          (positionAt ['a', 'b', '\n', 'c', 'd'] (0 + 3))] := by decide

/-- C2 amended: `indicesToSelections` produces exactly one range per input
offset, in input order, with no deduplication or merging, and the range for
offset `i` runs from `positionAt i` to `(positionAt i).translate(0, L)` —
which equals the document position of offset `i + L` whenever the matched
text does not span a line break (and differs when it does, per the
counterexample). -/
theorem indicesToSelections_shape :
    ∀ (text : List Char) (indices : List Nat) (L : Nat),
      (indicesToSelections text indices L).length = indices.length
      ∧ (∀ k : Nat, (indicesToSelections text indices L)[k]?
          = indices[k]?.map fun i =>
              Range.mk (positionAt text i) (translate (positionAt text i) 0 L))
      ∧ ∀ i : Nat, i + L ≤ text.length → '\n' ∉ (text.drop i).take L →
          translate (positionAt text i) 0 L = positionAt text (i + L) := by
  intro text indices L
  refine ⟨by simp [indicesToSelections], ?_, ?_⟩
  · intro k
    simp [indicesToSelections]
  · intro i h1 h2
    rw [positionAt_add_of_no_newline text L i h1 h2, translate]
    simp

/-- Witness for C2's amended claim at `text = "ab"`, `i = 0`, `L = 2`. -/
theorem indicesToSelections_shape_witness :
    ((0 : Nat) + 2 ≤ (['a', 'b'] : List Char).length
      ∧ '\n' ∉ ((['a', 'b'] : List Char).drop 0).take 2)
    ∧ translate (positionAt ['a', 'b'] 0) 0 2 = positionAt ['a', 'b'] (0 + 2) :=
  ⟨⟨by decide, by decide⟩,
    (indicesToSelections_shape ['a', 'b'] [] 2).2.2 0 (by decide) (by decide)⟩

/-- C3: when the seed start offset occurs in the index list, the removal
step `indices.splice(indices.indexOf(offset), 1)` removes exactly the first
entry equal to it; every other entry, including later duplicates of the
same value, is kept. -/
theorem removeSeed_first_occurrence :
    ∀ (indices : List Nat) (offset : Nat), offset ∈ indices →
      ∃ l1 l2, indices = l1 ++ offset :: l2 ∧ offset ∉ l1
        ∧ removeSeed indices offset = l1 ++ l2 := by
  intro indices
  induction indices with
  | nil => intro offset h; simp at h
  | cons a l ih =>
    intro offset h
    by_cases hax : a = offset
    · subst hax
      refine ⟨[], l, rfl, by simp, ?_⟩
      have h0 : jsArrayIndexOf (a :: l) a = 0 := by simp [jsArrayIndexOf]
      rw [removeSeed, h0, jsSplice1_zero]
      rfl
    · have hmem : offset ∈ l := by
        rcases List.mem_cons.mp h with h1 | h1
        · exact absurd h1.symm hax
        · exact h1
      obtain ⟨l1, l2, heq, hnot, hrem⟩ := ih offset hmem
      have hnn : 0 ≤ jsArrayIndexOf l offset := jsArrayIndexOf_mem_nonneg hmem
      refine ⟨a :: l1, l2, by rw [heq]; rfl, ?_, ?_⟩
      · intro hmm
        rcases List.mem_cons.mp hmm with h1 | h1
        · exact hax h1.symm
        · exact hnot h1
      · have hidx : jsArrayIndexOf (a :: l) offset = jsArrayIndexOf l offset + 1 := by
          rw [jsArrayIndexOf, if_neg hax, if_neg (by omega)]
        rw [removeSeed, hidx, jsSplice1_cons_succ a l _ hnn]
        show a :: removeSeed l offset = (a :: l1) ++ l2
        rw [hrem]
        rfl

/-- Witness for C3 at `indices = [5, 3, 5, 7]`, `offset = 5` (the first of
the two entries equal to 5 is removed). -/
theorem removeSeed_first_occurrence_witness :
    (5 : Nat) ∈ ([5, 3, 5, 7] : List Nat)
    ∧ ∃ l1 l2, ([5, 3, 5, 7] : List Nat) = l1 ++ 5 :: l2 ∧ (5 : Nat) ∉ l1
        ∧ removeSeed [5, 3, 5, 7] 5 = l1 ++ l2 :=
  ⟨by decide, removeSeed_first_occurrence [5, 3, 5, 7] 5 (by decide)⟩

/-- C10: for every non-empty index list that does not contain the seed
start offset, the removal step `indices.splice(indices.indexOf(offset), 1)`
removes exactly the last element: `indexOf` yields `-1` and `splice(-1, 1)`
deletes from the end, so the list is shortened by one (neither left
unchanged nor a thrown error — `splice` never throws here). -/
theorem removeSeed_absent_drops_last :
    ∀ (indices : List Nat) (offset : Nat), indices ≠ [] → offset ∉ indices →
      removeSeed indices offset = indices.dropLast
      ∧ (removeSeed indices offset).length + 1 = indices.length
      ∧ removeSeed indices offset ≠ indices := by
  intro indices offset hne hnm
  have h1 : removeSeed indices offset = indices.dropLast := by
    rw [removeSeed, jsArrayIndexOf_not_mem hnm, jsSplice1_neg_one hne]
  have hpos : 0 < indices.length := List.length_pos.mpr hne
  refine ⟨h1, ?_, ?_⟩
  · rw [h1, List.length_dropLast]
    omega
  · rw [h1]
    intro heq
    have hlen := congrArg List.length heq
    rw [List.length_dropLast] at hlen
    omega

/-- Witness for C10 at `indices = [4, 7, 9]`, `offset = 5`: the unrelated
last occurrence 9 is silently dropped. -/
theorem removeSeed_absent_drops_last_witness :
    (([4, 7, 9] : List Nat) ≠ [] ∧ (5 : Nat) ∉ ([4, 7, 9] : List Nat))
    ∧ removeSeed [4, 7, 9] 5 = ([4, 7, 9] : List Nat).dropLast :=
  ⟨⟨by decide, by decide⟩,
    (removeSeed_absent_drops_last [4, 7, 9] 5 (by decide) (by decide)).1⟩

/-- C5: seed determination: a non-empty selection is itself the seed with
the whole-word flag false; an empty selection takes the host's word range
at the caret as seed with the flag true; and with an empty selection and no
word at the caret the whole operation is a no-op. -/
theorem seed_determination :
    ∀ editor : TextEditor,
      (editor.selection.isEmpty = false →
        getSelection editor = (some editor.selection, false))
      ∧ (editor.selection.isEmpty = true →
        getSelection editor
          = (editor.getWordRangeAtPosition editor.selection.start, true))
      ∧ (editor.selection.isEmpty = true →
          editor.getWordRangeAtPosition editor.selection.start = none →
          selectAllOther (some editor) = OpResult.noop) := by
  intro editor
  refine ⟨?_, ?_, selectAllOther_no_word editor⟩
  · intro h
    simp [getSelection, h]
  · intro h
    simp [getSelection, h]

/-- Witness for C5 at `edSel` (non-empty selection) and `edNoWord` (empty
selection, no word at the caret). -/
theorem seed_determination_witness :
    getSelection edSel = (some edSel.selection, false)
    ∧ getSelection edNoWord
        = (edNoWord.getWordRangeAtPosition edNoWord.selection.start, true)
    ∧ selectAllOther (some edNoWord) = OpResult.noop :=
  ⟨(seed_determination edSel).1 (by decide),
    (seed_determination edNoWord).2.1 (by decide),
    (seed_determination edNoWord).2.2 (by decide) rfl⟩

/-- C4: once a seed range with non-empty seed text is established, the
whole-word flag true keeps exactly those built ranges whose span equals the
host's word range at the range's start position, and the flag false keeps
every built range unfiltered. -/
theorem selectAllOther_whole_word_filtering :
    ∀ (editor : TextEditor) (seed : Range) (ww : Bool),
      getSelection editor = (some seed, ww) →
      seedTextOf editor seed ≠ [] →
      (ww = true →
        selectAllOther (some editor)
          = OpResult.set ((builtSelections editor seed).filter (isWholeWord editor))
        ∧ ∀ s : Range,
            s ∈ (builtSelections editor seed).filter (isWholeWord editor)
              ↔ s ∈ builtSelections editor seed
                ∧ editor.getWordRangeAtPosition s.start = some s)
      ∧ (ww = false →
          selectAllOther (some editor) = OpResult.set (builtSelections editor seed)) := by
  intro editor seed ww hsel hne
  rw [selectAllOther_of_seed editor seed ww hsel, if_neg hne]
  constructor
  · intro hww
    subst hww
    refine ⟨by simp, ?_⟩
    intro s
    simp [List.mem_filter, isWholeWord]
  · intro hww
    subst hww
    simp

/-- Witness for C4 at `edWord` (whole-word flag true: the built range over
the second `ab` survives the filter) and `edSel` (flag false). -/
theorem selectAllOther_whole_word_filtering_witness :
    (getSelection edWord = (some (Range.mk ⟨0, 0⟩ ⟨0, 2⟩), true)
      ∧ seedTextOf edWord (Range.mk ⟨0, 0⟩ ⟨0, 2⟩) ≠ [])
    ∧ selectAllOther (some edWord)
        = OpResult.set
          ((builtSelections edWord (Range.mk ⟨0, 0⟩ ⟨0, 2⟩)).filter (isWholeWord edWord))
    ∧ selectAllOther (some edSel)
        = OpResult.set (builtSelections edSel (Range.mk ⟨0, 0⟩ ⟨0, 2⟩)) :=
  ⟨⟨by decide, by decide⟩,
    ((selectAllOther_whole_word_filtering edWord (Range.mk ⟨0, 0⟩ ⟨0, 2⟩) true
      (by decide) (by decide)).1 rfl).1,
    (selectAllOther_whole_word_filtering edSel (Range.mk ⟨0, 0⟩ ⟨0, 2⟩) false
      (by decide) (by decide)).2 rfl⟩

/-- C6 counterexample: in the editor state `edEmptySeed` the seed text is
the empty string, yet the operation is not a no-op: the orchestrator has no
guard between extension.ts lines 61 and 62, `findAll` is invoked with the
empty search string, and its loop never exits (`OpResult.diverge`). -/
theorem empty_seed_not_guarded_cex :
    getSelection edEmptySeed = (some (Range.mk ⟨0, 0⟩ ⟨0, 5⟩), false)
    ∧ seedTextOf edEmptySeed (Range.mk ⟨0, 0⟩ ⟨0, 5⟩) = []
    ∧ selectAllOther (some edEmptySeed) = OpResult.diverge
    ∧ OpResult.diverge ≠ OpResult.noop :=
  ⟨by decide, by decide, by decide, by decide⟩

/-- C6 amended: the orchestrator does not guard the Finder's non-empty
precondition: whenever the seed text is the empty string, `findAll` is
invoked with the empty search string and its scan loop never terminates
(every iteration of the loop body finds a match, so the `-1` exit is never
taken); the operation neither completes nor mutates the selections. -/
theorem empty_seed_invokes_finder :
    ∀ (editor : TextEditor) (seed : Range) (ww : Bool),
      getSelection editor = (some seed, ww) →
      seedTextOf editor seed = [] →
      selectAllOther (some editor) = OpResult.diverge
      ∧ ∀ start fuel : Nat, (findAllAux editor.text [] start fuel).length = fuel := by
  intro editor seed ww hsel hempty
  refine ⟨?_, fun start fuel => findAllAux_nil_search editor.text fuel start⟩
  rw [selectAllOther_of_seed editor seed ww hsel, if_pos hempty]

/-- Witness for C6's amended claim at `edEmptySeed`. -/
theorem empty_seed_invokes_finder_witness :
    (getSelection edEmptySeed = (some (Range.mk ⟨0, 0⟩ ⟨0, 5⟩), false)
      ∧ seedTextOf edEmptySeed (Range.mk ⟨0, 0⟩ ⟨0, 5⟩) = [])
    ∧ selectAllOther (some edEmptySeed) = OpResult.diverge
    ∧ (findAllAux edEmptySeed.text [] 0 9).length = 9 :=
  ⟨⟨by decide, by decide⟩,
    (empty_seed_invokes_finder edEmptySeed (Range.mk ⟨0, 0⟩ ⟨0, 5⟩) false
      (by decide) (by decide)).1,
    (empty_seed_invokes_finder edEmptySeed (Range.mk ⟨0, 0⟩ ⟨0, 5⟩) false
      (by decide) (by decide)).2 0 9⟩

/-- C8 counterexample: the empty-seed-text precondition failure does not
abort the operation: at `edEmptySeed` the result is `OpResult.diverge`
(the invocation never returns), not the `OpResult.noop` of an abort. -/
theorem precondition_failure_no_abort_cex :
    seedTextOf edEmptySeed edEmptySeed.selection = []
    ∧ selectAllOther (some edEmptySeed) ≠ OpResult.noop
    ∧ selectAllOther (some edEmptySeed) = OpResult.diverge :=
  ⟨by decide, by decide, by decide⟩

/-- C8 amended: the no-active-editor and no-word-at-caret precondition
failures abort the operation before any mutation (the selection set is left
unchanged and, the embedding being total, no exception arises — the source
path contains no `throw`), but the empty-seed-text case is not an abort:
there the operation diverges inside `findAll` (never mutating, never
completing). -/
theorem precondition_failures_abort :
    selectAllOther none = OpResult.noop
    ∧ (∀ editor : TextEditor, editor.selection.isEmpty = true →
        editor.getWordRangeAtPosition editor.selection.start = none →
        selectAllOther (some editor) = OpResult.noop)
    ∧ (∀ (editor : TextEditor) (seed : Range) (ww : Bool),
        getSelection editor = (some seed, ww) →
        seedTextOf editor seed = [] →
        selectAllOther (some editor) = OpResult.diverge) := by
  refine ⟨rfl, selectAllOther_no_word, ?_⟩
  intro editor seed ww hsel hempty
  rw [selectAllOther_of_seed editor seed ww hsel, if_pos hempty]

/-- Witness for C8's amended claim at `edNoWord` and `edEmptySeed`. -/
theorem precondition_failures_abort_witness :
    selectAllOther none = OpResult.noop
    ∧ selectAllOther (some edNoWord) = OpResult.noop
    ∧ selectAllOther (some edEmptySeed) = OpResult.diverge :=
  ⟨precondition_failures_abort.1,
    precondition_failures_abort.2.1 edNoWord (by decide) rfl,
    precondition_failures_abort.2.2 edEmptySeed (Range.mk ⟨0, 0⟩ ⟨0, 5⟩) false
      (by decide) (by decide)⟩

/-- C9: when the seed text occurs in the document exactly once, at the seed
range's own start offset, the operation completes by replacing the editor's
selections with the empty selection set (not an error: the assignment
`editor.selections = []` is performed normally). -/
theorem unique_occurrence_empty_selection_set :
    ∀ (editor : TextEditor) (seed : Range) (ww : Bool),
      getSelection editor = (some seed, ww) →
      seedTextOf editor seed ≠ [] →
      findAll editor.text (seedTextOf editor seed)
        = [offsetAt editor.text seed.start] →
      selectAllOther (some editor) = OpResult.set [] := by
  intro editor seed ww hsel hne huniq
  rw [selectAllOther_of_seed editor seed ww hsel, if_neg hne]
  have hbuilt : builtSelections editor seed = [] := by
    rw [builtSelections, huniq, removeSeed_singleton]
    rfl
  rw [hbuilt]
  cases ww <;> simp

/-- Witness for C9 at `edUnique` (the whole text `abc` is selected and
occurs exactly once). -/
theorem unique_occurrence_empty_selection_set_witness :
    (getSelection edUnique = (some (Range.mk ⟨0, 0⟩ ⟨0, 3⟩), false)
      ∧ seedTextOf edUnique (Range.mk ⟨0, 0⟩ ⟨0, 3⟩) ≠ []
      ∧ findAll edUnique.text (seedTextOf edUnique (Range.mk ⟨0, 0⟩ ⟨0, 3⟩))
          = [offsetAt edUnique.text (Range.mk ⟨0, 0⟩ ⟨0, 3⟩).start])
    ∧ selectAllOther (some edUnique) = OpResult.set [] :=
  ⟨⟨by decide, by decide, by decide⟩,
    unique_occurrence_empty_selection_set edUnique (Range.mk ⟨0, 0⟩ ⟨0, 3⟩) false
      (by decide) (by decide) (by decide)⟩

end Vscode
